import Mathlib

/-!
Verification of the Config-Updater macro engine.

The engine resolves placeholder nodes ("config-macros") inside nested
configuration structures against a prioritized chain of named repositories.
This file gives a shallow embedding of the JavaScript implementation
(`CuError`, `CM`, `ConfigUpdater` with `getCmValue`, `register`, `unregister`,
`reset`, `updateConfig` and the default resolver) and proves properties of it.

Modelling conventions:
- JavaScript values are modelled by `JVal`; `undefined` and `null` are the
  distinct constructors `undef` and `null`.  Functions are modelled as opaque
  handles `func id`; an environment `CbEnv` interprets a handle when a macro
  callback is invoked.
- Objects are insertion-ordered association lists.  Mutation is modelled by
  value passing: every mutating routine returns the updated value.
- Exceptions are modelled with `Except CuError`.
- The unbounded recursions of the source (`traverseConfig` may recurse into
  values freshly produced by a resolver, and can genuinely diverge in JS)
  take an explicit fuel argument; running out of fuel returns the input
  unchanged for `traverseConfig` and an error for `getCmValueFuel`.  The
  recursion of `getCmValue` itself is structurally bounded by the macro, so
  its public wrapper supplies always-sufficient fuel.
-/

/-- Error class of the Config-Helper-System (`class CuError extends Error`). -/
structure CuError where
  msg : String
deriving Repr, DecidableEq

/-- One step of a path through a configuration tree: a mapping key (string)
or a sequence index (number), exactly the two shapes `updateConfig` pushes. -/
inductive PathEl where
  | s (v : String)
  | n (v : Nat)
deriving Repr, DecidableEq

/-- JavaScript runtime values as far as the engine observes them. -/
inductive JVal where
  | undef
  | null
  | bool (b : Bool)
  | num (v : Int)
  | str (s : String)
  | func (id : Nat)
  | arr (elems : List JVal)
  | obj (fields : List (String × JVal))
deriving Repr

namespace CM

/-- `CM.KEY_KEY`. -/
def KEY_KEY : String := "$$"

/-- `CM.DEFAULT_KEY`. -/
def DEFAULT_KEY : String := "$default"

/-- `CM.MANDATORY_KEY`. -/
def MANDATORY_KEY : String := "$mandatory"

/-- `CM.CALLBACK_KEY`. -/
def CALLBACK_KEY : String := "$callback"

end CM

/-- `ConfigUpdater.FALLBACK_KEY`. -/
def FALLBACK_KEY : String := "$defaults"

/-- JavaScript truthiness. -/
def isTruthy : JVal → Bool
  | .undef => false
  | .null => false
  | .bool b => b
  | .num v => v != 0
  | .str s => s ≠ ""
  | .func _ => true
  | .arr _ => true
  | .obj _ => true

/-- Strict equality with `undefined` (`x !== undefined` is its negation). -/
def isUndef : JVal → Bool
  | .undef => true
  | _ => false

/-- Loose equality with `undefined` (`x == undefined`): true exactly for
`undefined` and `null`. -/
def looseUndef : JVal → Bool
  | .undef => true
  | .null => true
  | _ => false

/-- Truthy and of `typeof == "object"`: a mapping or an array (null is
excluded by truthiness, functions have `typeof == "function"`). -/
def isObjLike : JVal → Bool
  | .arr _ => true
  | .obj _ => true
  | _ => false

/-- First-match lookup in an insertion-ordered field list (property read). -/
def lookupF : List (String × JVal) → String → Option JVal
  | [], _ => none
  | (k, v) :: rest, key => if k = key then some v else lookupF rest key

/-- `hasOwnProperty`. -/
def hasOwnF (fields : List (String × JVal)) (key : String) : Bool :=
  (lookupF fields key).isSome

/-- Property read defaulting to `undefined`, as a JS member access does. -/
def getOwnF (fields : List (String × JVal)) (key : String) : JVal :=
  ((lookupF fields key).getD .undef)

/-- Property write `o[k] = v`: replaces the first binding of `k`, or appends
a new binding when `k` is absent (JS assignment creates the property). -/
def setF : List (String × JVal) → String → JVal → List (String × JVal)
  | [], k, v => [(k, v)]
  | (k', v') :: rest, k, v =>
      if k' = k then (k', v) :: rest else (k', v') :: setF rest k v

/-- Does the node carry the reserved `$$` field, i.e. is it shaped like a
config-macro?  (`cm_or_any && cm_or_any.hasOwnProperty(CM.KEY_KEY)`; only a
mapping can carry the field in this model.) -/
def hasCmKey : JVal → Bool
  | .obj fields => hasOwnF fields CM.KEY_KEY
  | _ => false

/-- Digit-list evaluation used to recognise canonical array indices. -/
def digitsVal : List Char → Nat → Option Nat
  | [], acc => some acc
  | c :: rest, acc =>
      if c.isDigit then digitsVal rest (acc * 10 + (c.toNat - 48)) else none

/-- A string that is a canonical array index ("0", "1", ..., no leading
zeros), the only string keys under which JS indexes an array element. -/
def strAsIndex (k : String) : Option Nat :=
  match digitsVal k.data 0 with
  | some i => if toString i = k then some i else none
  | none => none

/-- JS member access `v[k]` for the value shapes a repository walk can meet:
mapping property, array element (canonical index) or length, string
character or length; every other access yields `undefined`.  (Accessing a
property of `null`/`undefined` would throw in JS; the walk in
`#default_resolver` tests `== undefined` before each step, so that case is
unreachable there.) -/
def jsIndex : JVal → String → JVal
  | .obj fields, k => getOwnF fields k
  | .arr xs, k =>
      if k = "length" then .num xs.length
      else
        match strAsIndex k with
        | some i => (xs[i]?).getD .undef
        | none => .undef
  | .str s, k =>
      if k = "length" then .num s.data.length
      else
        match strAsIndex k with
        | some i =>
            match s.data[i]? with
            | some c => .str c.toString
            | none => .undef
        | none => .undef
  | _, _ => .undef

mutual

/-- Structural size of a value.  It bounds the nesting depth, hence also the
recursion depth of every structurally bounded routine of the engine. -/
def jsize : JVal → Nat
  | .arr xs => 1 + jsizeL xs
  | .obj fs => 1 + jsizeF fs
  | _ => 1
termination_by structural v => v

/-- Size of an element list (see `jsize`). -/
def jsizeL : List JVal → Nat
  | [] => 0
  | x :: xs => jsize x + jsizeL xs
termination_by structural l => l

/-- Size of a field list (see `jsize`). -/
def jsizeF : List (String × JVal) → Nat
  | [] => 0
  | (_, v) :: fs => jsize v + jsizeF fs
termination_by structural l => l

end

mutual

/-- JS loose equality (`==`) on the value shapes the engine compares.
Same-type comparisons are exact; `undefined == null`; a plain mapping
compared with a string coerces (via `ToPrimitive`) to "[object Object]".
Mixed number/string/boolean coercions are modelled as unequal: the only
loose comparison between values of different type classes the engine
performs is `result != value` in `updateConfig`, where `value` is always a
mapping.  Mapping/array comparison is structural, standing in for reference
equality of the value semantics. -/
def jsEq : JVal → JVal → Bool
  | .undef, b => looseUndef b
  | .null, b => looseUndef b
  | .bool x, b => match b with | .bool y => x == y | _ => false
  | .num x, b => match b with | .num y => x == y | _ => false
  | .str x, b =>
      match b with
      | .str y => x == y
      | .obj _ => x == "[object Object]"
      | _ => false
  | .func x, b => match b with | .func y => x == y | _ => false
  | .arr xs, b => match b with | .arr ys => jsEqL xs ys | _ => false
  | .obj fs, b =>
      match b with
      | .obj gs => jsEqFs fs gs
      | .str y => y == "[object Object]"
      | _ => false
termination_by structural a => a

/-- Elementwise equality of element lists (see `jsEq`). -/
def jsEqL : List JVal → List JVal → Bool
  | [], ys => ys.isEmpty
  | x :: xs, ys =>
      match ys with
      | y :: ys' => jsEq x y && jsEqL xs ys'
      | [] => false
termination_by structural l => l

/-- Entrywise equality of field lists (see `jsEq`). -/
def jsEqFs : List (String × JVal) → List (String × JVal) → Bool
  | [], gs => gs.isEmpty
  | (k, v) :: fs, gs =>
      match gs with
      | (k', v') :: gs' => k == k' && jsEq v v' && jsEqFs fs gs'
      | [] => false
termination_by structural l => l

end

/-- JS loose inequality `!=`. -/
def jsLooseNe (a b : JVal) : Bool := !(jsEq a b)

/-- String image of one path element, as `Array.prototype.join` renders it. -/
def pathElStr : PathEl → String
  | .s v => v
  | .n i => toString i

/-- `path.join("/")`. -/
def pathJoin (path : List PathEl) : String :=
  String.intercalate "/" (path.map pathElStr)

/-- Rough display of a value inside an error text.  Claims never inspect the
text of the invalid-key error, so composite values are abbreviated rather
than serialized the way a JS template literal would. -/
def jsDisplay : JVal → String
  | .undef => "undefined"
  | .null => "null"
  | .bool true => "true"
  | .bool false => "false"
  | .num v => toString v
  | .str s => s
  | .func _ => "function"
  | .arr _ => "[array]"
  | .obj _ => "[object Object]"

/-- Text of the invalid-macro-key error of `getCmValue`. -/
def invalidKeyMsg (v : JVal) (path : List PathEl) : String :=
  "Invalid macro-key \"" ++ jsDisplay v ++ "\" (path: " ++ pathJoin path ++ ")"

/-- Text of the mandatory-value error of `getCmValue`. -/
def mandatoryMsg (path : List PathEl) : String :=
  "Property \"" ++ pathJoin path ++ "\" is mandatory."

/-- Text of the invalid-callback error of `CM.checkCallback`. -/
def callbackMsg : String := "The callback-property must be a function"

/-- Split a search key on "/" (`searchKey.split("/")`); like the JS method,
an empty string yields `[""]` and empty segments are kept. -/
def splitSlashAux : List Char → List Char → List String
  | [], acc => [String.mk acc.reverse]
  | c :: rest, acc =>
      if c = '/' then String.mk acc.reverse :: splitSlashAux rest []
      else splitSlashAux rest (c :: acc)

/-- `searchKey.split("/")`. -/
def splitSlash (s : String) : List String := splitSlashAux s.data []

/-- Does the key start with `CM.PARENT_DEPENDENT_INDICATOR` ("?")? -/
def startsWithQm (s : String) : Bool :=
  match s.data with
  | c :: _ => c = '?'
  | [] => false

/-- Backward scan of `getCmValue`'s parent-key loop, over the reversed path
with the node's own entry already consumed.  The flag records whether the
scan is inside a run of numeric (array-index) entries; when the run ends,
the adjacent entry (the array's own key) is skipped as well before the scan
resumes looking for a string entry. -/
def scanGo : Bool → List PathEl → String
  | _, [] => ""
  | false, .s v :: _ => v
  | false, .n _ :: rest => scanGo true rest
  | true, .n _ :: rest => scanGo true rest
  | true, .s _ :: rest => scanGo false rest

/-- The `parent` computed by the backward while-loop of `getCmValue`: the
loop starts at the node's own entry (`p = path.length - 1`), never returns
it (the `p < path.length - 1` guard), and skips each numeric run together
with the preceding array-name entry. -/
def parentScan (path : List PathEl) : String :=
  match path.reverse with
  | [] => ""
  | .s _ :: rest => scanGo false rest
  | .n _ :: rest => scanGo true rest

/-- Parent-dependent expansion of a search key: when the key starts with
"?", the marker is replaced by the scanned parent name
(`parent + searchKey.substring(1)`). -/
def expandSearchKey (key : String) (path : List PathEl) : String :=
  if startsWithQm key then parentScan path ++ key.drop 1 else key

/-- Signature of a repository resolver:
`(repository, splitSearchKey, macroNode, path) -> value | undefined`. -/
abbrev Resolver := JVal → List String → JVal → List PathEl → JVal

/-- One registered repository: `[name, resolver, dictionary]`. -/
structure RepoEntry where
  name : String
  resolver : Resolver
  repository : JVal

/-- Interpretation of callback handles (`JVal.func id`): JS call
`callback(result, cm_or_any, path)`. -/
abbrev CbEnv := Nat → JVal → JVal → List PathEl → JVal

/-- Walk of `ConfigUpdater.#default_resolver`: descend one level per key
segment; if an intermediate value is loosely `undefined`, answer
`undefined` immediately. -/
def resolverWalk : JVal → List String → JVal
  | repository, [] => repository
  | repository, seg :: rest =>
      let next := jsIndex repository seg
      if looseUndef next then .undef else resolverWalk next rest

/-- `ConfigUpdater.#default_resolver` (ignores the macro node and the path). -/
def default_resolver : Resolver :=
  fun repository splitSearchKey _ _ => resolverWalk repository splitSearchKey

/-- The repository loop of `getCmValue`: call each entry's resolver in chain
order and stop at the first result that is strictly `!== undefined`; an
exhausted chain leaves `result` at `undefined`. -/
def chainLookup (segs : List String) (node : JVal) (path : List PathEl) :
    List RepoEntry → JVal
  | [] => .undef
  | r :: rest =>
      let result := r.resolver r.repository segs node path
      if isUndef result then chainLookup segs node path rest else result

/-- The callback step of `getCmValue`: a truthy `$callback` value is first
checked by `CM.checkCallback` (throws unless it is a function) and then
invoked, its return value replacing the result; a falsy `$callback` value is
skipped like an absent one. -/
def applyCallback (cbs : CbEnv) (fields : List (String × JVal)) (node : JVal)
    (result : JVal) (path : List PathEl) : Except CuError JVal :=
  let callback := getOwnF fields CM.CALLBACK_KEY
  if isTruthy callback then
    match callback with
    | .func id => .ok (cbs id result node path)
    | _ => .error ⟨callbackMsg⟩
  else .ok result

/-- The mandatory step of `getCmValue`: a loosely-`undefined` result together
with a truthy `$mandatory` raises; anything else is returned. -/
def mandatoryCheck (fields : List (String × JVal)) (path : List PathEl)
    (result : JVal) : Except CuError JVal :=
  if looseUndef result && isTruthy (getOwnF fields CM.MANDATORY_KEY) then
    .error ⟨mandatoryMsg path⟩
  else .ok result

/-- One unfolding of the body of `getCmValue(cm_or_any, path)`, with the
recursive call on the `$default` value abstracted as `recurse`:
macro check, key validation, parent-dependent expansion, repository loop,
default recursion, callback step, mandatory check. -/
def getCmStep (cbs : CbEnv) (repos : List RepoEntry)
    (recurse : JVal → List PathEl → Except CuError JVal)
    (cm_or_any : JVal) (path : List PathEl) : Except CuError JVal :=
  match cm_or_any with
  | .obj fields =>
      if hasOwnF fields CM.KEY_KEY then
        match getOwnF fields CM.KEY_KEY with
        | .str s =>
           if s = "" then .error ⟨invalidKeyMsg (.str s) path⟩
           else
             let searchKey := expandSearchKey s path
             let result := chainLookup (splitSlash searchKey) (.obj fields) path repos
             let afterDefault : Except CuError JVal :=
               if looseUndef result && hasOwnF fields CM.DEFAULT_KEY then
                 recurse (getOwnF fields CM.DEFAULT_KEY) (path ++ [.s "CM.DEFAULT_KEY"])
               else .ok result
             afterDefault.bind fun r1 =>
               (applyCallback cbs fields (.obj fields) r1 path).bind fun r2 =>
                 mandatoryCheck fields path r2
        | v => .error ⟨invalidKeyMsg v path⟩
      else .ok (.obj fields)
  | v => .ok v

/-- `ConfigUpdater.getCmValue(cm_or_any, path)` with explicit fuel for the
recursion into `$default` values.  That recursion always targets a strict
subterm of the macro node, so `jsize cm_or_any + 1` fuel never runs out;
the public wrapper `getCmValue` supplies it. -/
def getCmValueFuel (cbs : CbEnv) (repos : List RepoEntry) :
    Nat → JVal → List PathEl → Except CuError JVal
  | 0 => fun _ _ => .error ⟨"fuel exhausted"⟩
  | fuel+1 => fun cm_or_any path =>
      getCmStep cbs repos (getCmValueFuel cbs repos fuel) cm_or_any path

/-- `ConfigUpdater.getCmValue`: macro resolution.  A non-macro value passes
through unchanged; a macro node is validated, expanded, looked up through
the repository chain, completed from `$default`, transformed by `$callback`
and checked against `$mandatory`. -/
def getCmValue (cbs : CbEnv) (repos : List RepoEntry) (cm_or_any : JVal)
    (path : List PathEl) : Except CuError JVal :=
  getCmValueFuel cbs repos (jsize cm_or_any + 1) cm_or_any path

/-- The combined repository-lookup-then-default portion of `getCmValue` for
a macro with field list `fields` and validated key `k`; used to state
theorems about the steps that follow it. -/
def defaultStep (cbs : CbEnv) (repos : List RepoEntry)
    (fields : List (String × JVal)) (k : String) (path : List PathEl) :
    Except CuError JVal :=
  if looseUndef (chainLookup (splitSlash (expandSearchKey k path)) (.obj fields) path repos)
      && hasOwnF fields CM.DEFAULT_KEY then
    getCmValue cbs repos (getOwnF fields CM.DEFAULT_KEY) (path ++ [.s "CM.DEFAULT_KEY"])
  else .ok (chainLookup (splitSlash (expandSearchKey k path)) (.obj fields) path repos)

/-- The entries a `for (const key in fallback)` loop enumerates, paired with
the values read back by `fallback[key]`: the own fields of a mapping, the
indexed elements of an array, the indexed characters of a string, nothing
for any other value.  (Numeric own keys of a mapping, which JS would
enumerate first, keep their insertion position in this model.) -/
def fallbackEntries : JVal → List (String × JVal)
  | .obj fs => fs
  | .arr xs => (xs.enum).map fun p => (toString p.1, p.2)
  | .str s => (s.data.enum).map fun p => (toString p.1, .str p.2.toString)
  | _ => []

/-- The copy-down loop of `updateConfig` on a mapping result: against the
snapshot of `Object.keys(result)` taken before the loop, every enumerated
fallback entry whose key is not in the snapshot is appended (JS assignment
of a fresh property appends in insertion order). -/
def copyFields (fallback : JVal) (rf : List (String × JVal)) :
    List (String × JVal) :=
  rf ++ (fallbackEntries fallback).filter fun e => !((rf.map (fun q => q.1)).contains e.1)

/-- Fallback copy-down onto a resolved result.  Only a mapping result gains
entries; on an array result the JS loop would attach non-index expando
properties, which the array model does not represent — they are never
traversed, never resolved and invisible to JSON serialization, so the copy
is modelled as the identity there. -/
def copyFallback (fallback result : JVal) : JVal :=
  match result with
  | .obj rf => .obj (copyFields fallback rf)
  | other => other

/-- The body of `traverseConfig` for a mapping node, iterating over the
snapshot `Object.keys(config)` and threading the mutated field list.
`recurse` is the traversal of child results (one fuel step lower) and
`resolve` is `getCmValue`.  A processed entry (truthy object value, not the
fallback key, not excluded) is resolved; a non-object result replaces the
entry when it is loosely `!=` the original value; an object result receives
the fallback copy-down, is traversed recursively, and — since the JS object
sits in `config[indexKey]` by reference — its final mutated form is what the
entry holds afterwards. -/
def goFields (recurse : List PathEl → JVal → Except CuError JVal)
    (resolve : JVal → List PathEl → Except CuError JVal)
    (exclude : List String) (path : List PathEl) (fallback : JVal) :
    List String → List (String × JVal) → Except CuError (List (String × JVal))
  | [], fields => .ok fields
  | k :: ks, fields =>
      if isObjLike (getOwnF fields k) && !(k == FALLBACK_KEY) && !(exclude.contains k) then
        (resolve (getOwnF fields k) (path ++ [.s k])).bind fun result =>
          if isObjLike result then
            (recurse (path ++ [.s k])
                (if isTruthy fallback then copyFallback fallback result else result)).bind
              fun result2 =>
                goFields recurse resolve exclude path fallback ks (setF fields k result2)
          else
            goFields recurse resolve exclude path fallback ks
              (if jsLooseNe result (getOwnF fields k) then setF fields k result else fields)
      else goFields recurse resolve exclude path fallback ks fields

/-- The body of `traverseConfig` for an array node (`config.keys()` yields
the numeric indices, so the exclusion list of property names never matches
and `config[$defaults]` is `undefined`, disabling the copy-down). -/
def goElems (recurse : List PathEl → JVal → Except CuError JVal)
    (resolve : JVal → List PathEl → Except CuError JVal)
    (path : List PathEl) : Nat → List JVal → Except CuError (List JVal)
  | _, [] => .ok []
  | i, x :: xs =>
      (if isObjLike x then
         (resolve x (path ++ [.n i])).bind fun result =>
           if isObjLike result then recurse (path ++ [.n i]) result
           else .ok (if jsLooseNe result x then result else x)
       else .ok x).bind fun x' =>
        (goElems recurse resolve path (i + 1) xs).bind fun xs' => .ok (x' :: xs')

/-- `traverseConfig` of `updateConfig`, with fuel for the recursion into
resolver-produced values (which JS does not bound: a repository value that
contains a macro resolving to itself makes the original loop diverge).
Exhausted fuel returns the node unchanged. -/
def traverseConfig (cbs : CbEnv) (repos : List RepoEntry)
    (exclude : List String) : Nat → List PathEl → JVal → Except CuError JVal
  | 0 => fun _ config => .ok config
  | fuel+1 => fun path config =>
      match config with
      | .obj fields =>
          (goFields (traverseConfig cbs repos exclude fuel) (getCmValue cbs repos)
              exclude path (getOwnF fields FALLBACK_KEY)
              (fields.map (fun q => q.1)) fields).map .obj
      | .arr xs =>
          (goElems (traverseConfig cbs repos exclude fuel) (getCmValue cbs repos)
              path 0 xs).map .arr
      | v => .ok v

/-- `ConfigUpdater.updateConfig(root, exclude, initialParentKey)`: a truthy
object root is traversed (the path seeded with `initialParentKey` when that
is a non-empty string); any other root is returned untouched. -/
def updateConfig (cbs : CbEnv) (repos : List RepoEntry) (fuel : Nat)
    (root : JVal) (exclude : List String) (initialParentKey : String) :
    Except CuError JVal :=
  if isObjLike root then
    traverseConfig cbs repos exclude fuel
      (if initialParentKey = "" then [] else [.s initialParentKey]) root
  else .ok root

/-- `splice(index, 0, entry)`: insertion at an index clamped to the length. -/
def spliceIn (index : Nat) (e : RepoEntry) (l : List RepoEntry) :
    List RepoEntry :=
  l.take index ++ e :: l.drop index

/-- `ConfigUpdater.unregister(name)` on the repository list: remove the
first entry with the given name (a miss removes nothing). -/
def unregisterChain : List RepoEntry → String → List RepoEntry
  | [], _ => []
  | r :: rest, name =>
      if r.name = name then rest else r :: unregisterChain rest name

/-- The boolean `unregister` returns: whether an entry was removed. -/
def unregisterFound : List RepoEntry → String → Bool
  | [], _ => false
  | r :: rest, name => r.name = name || unregisterFound rest name

/-- The default `index` argument of `register`. -/
def REGISTER_END : Nat := 9999999

/-- `ConfigUpdater.register(name, repository, index, resolver)` on the
repository list: first unregister the name, then splice the new entry
`[name, resolver || default_resolver, repository]` in at `index`. -/
def registerChain (chain : List RepoEntry) (name : String) (repository : JVal)
    (index : Nat) (resolver : Option Resolver) : List RepoEntry :=
  spliceIn index ⟨name, resolver.getD default_resolver, repository⟩
    (unregisterChain chain name)

/-- `ConfigUpdater.reset()`: clear the list, then register the process
environment (modelled as a parameter) under the name "env". -/
def resetChain (envRepo : JVal) : List RepoEntry :=
  registerChain [] "env" envRepo REGISTER_END none

/-- One public mutation of the repository chain. -/
inductive ChainOp where
  | doRegister (name : String) (repository : JVal) (index : Nat)
      (resolver : Option Resolver)
  | doUnregister (name : String)
  | doReset

/-- Apply one mutation to the repository list. -/
def applyChainOp (envRepo : JVal) (chain : List RepoEntry) :
    ChainOp → List RepoEntry
  | .doRegister name repository index resolver =>
      registerChain chain name repository index resolver
  | .doUnregister name => unregisterChain chain name
  | .doReset => resetChain envRepo

/-- `getRepositoryNames()`. -/
def chainNames (chain : List RepoEntry) : List String := chain.map (·.name)

/-- Does a mapping value already define every key the fallback template
enumerates?  (Non-mapping values receive no copies in the model.) -/
def fbKeysPresent (fallback : JVal) : JVal → Bool
  | .obj vf => (fallbackEntries fallback).all fun e => (vf.map (fun q => q.1)).contains e.1
  | _ => true

/-- A tree on which one `traverseConfig` pass has nothing left to do: every
entry the traversal would process (truthy object value, not the fallback
key, not excluded) is not macro-shaped, already carries every key of the
enclosing fallback template, and is recursively in the same state.  Fuel
mirrors the fuel of `traverseConfig`. -/
def stableF (exclude : List String) : Nat → JVal → Bool
  | 0 => fun _ => true
  | fuel+1 => fun v =>
      match v with
      | .obj fields =>
          (fields.map (fun q => q.1)).all fun k =>
            if isObjLike (getOwnF fields k) && !(k == FALLBACK_KEY)
                && !(exclude.contains k) then
              !(hasCmKey (getOwnF fields k)) &&
              (!(isTruthy (getOwnF fields FALLBACK_KEY)) ||
                fbKeysPresent (getOwnF fields FALLBACK_KEY) (getOwnF fields k)) &&
              stableF exclude fuel (getOwnF fields k)
            else true
      | .arr xs => xs.all fun x =>
          if isObjLike x then !(hasCmKey x) && stableF exclude fuel x else true
      | _ => true

/-- First string entry of a reversed path fragment, numeric entries
skipped. -/
def firstNamed : List PathEl → String
  | [] => ""
  | .s v :: _ => v
  | .n _ :: rest => firstNamed rest

/-- Modelled from the spec's words ("replace the marker with the nearest
enclosing mapping-key segment found by scanning `path` backward from the
current node's own entry, skipping numeric (sequence-index) segments"):
drop the node's own entry, scan backward, return the first string segment.
Stated only to compare against the scan the code performs (`parentScan`). -/
def specNearestNamedAncestor (path : List PathEl) : String :=
  firstNamed path.dropLast.reverse

/-! ### Structural lemmas about the resolution engine -/

/-- Every value has positive size. -/
theorem jsize_pos (v : JVal) : 1 ≤ jsize v := by
  cases v <;> simp [jsize]

/-- A field value is no larger than the whole field list. -/
theorem lookupF_jsizeF {fields : List (String × JVal)} {k : String} {v : JVal}
    (h : lookupF fields k = some v) : jsize v ≤ jsizeF fields := by
  induction fields with
  | nil => simp [lookupF] at h
  | cons e rest ih =>
      obtain ⟨k', v'⟩ := e
      by_cases hk : k' = k
      · simp only [lookupF, if_pos hk, Option.some.injEq] at h
        subst h
        simp only [jsizeF]
        omega
      · simp only [lookupF, if_neg hk] at h
        have := ih h
        simp only [jsizeF]
        omega

/-- A field value is strictly smaller than the mapping that carries it; this
bounds the `$default` recursion of `getCmValue`. -/
theorem lookupF_jsize_lt {fields : List (String × JVal)} {k : String} {v : JVal}
    (h : lookupF fields k = some v) : jsize v < jsize (.obj fields) := by
  have h1 := lookupF_jsizeF h
  simp only [jsize]
  omega

/-- `getCmStep` only invokes its recursion argument on a strict subterm, so
two recursion arguments that agree below the node give the same step. -/
theorem getCmStep_congr {cbs : CbEnv} {repos : List RepoEntry}
    {r1 r2 : JVal → List PathEl → Except CuError JVal}
    (v : JVal) (path : List PathEl)
    (h : ∀ w p, jsize w < jsize v → r1 w p = r2 w p) :
    getCmStep cbs repos r1 v path = getCmStep cbs repos r2 v path := by
  cases v with
  | obj fields =>
      simp only [getCmStep]
      by_cases hkk : hasOwnF fields CM.KEY_KEY = true
      · simp only [hkk, if_true]
        cases hg : getOwnF fields CM.KEY_KEY <;> try rfl
        rename_i s
        dsimp only
        by_cases hs : s = ""
        · simp [hs]
        · rw [if_neg hs, if_neg hs]
          by_cases hc : (looseUndef
                (chainLookup (splitSlash (expandSearchKey s path)) (.obj fields) path repos)
              && hasOwnF fields CM.DEFAULT_KEY) = true
          · rw [if_pos hc, if_pos hc]
            have hd : (lookupF fields CM.DEFAULT_KEY).isSome := by
              have h2 := (Bool.and_eq_true _ _ |>.mp hc).2
              simpa [hasOwnF] using h2
            obtain ⟨d, hdv⟩ := Option.isSome_iff_exists.mp hd
            have hge : getOwnF fields CM.DEFAULT_KEY = d := by
              simp [getOwnF, hdv]
            have hlt : jsize (getOwnF fields CM.DEFAULT_KEY) < jsize (.obj fields) := by
              rw [hge]
              exact lookupF_jsize_lt hdv
            rw [h _ _ hlt]
          · rw [if_neg hc, if_neg hc]
      · simp [hkk]
  | undef => rfl
  | null => rfl
  | bool b => rfl
  | num n => rfl
  | str s => rfl
  | func i => rfl
  | arr xs => rfl

/-- Any two sufficient fuels give `getCmValueFuel` the same answer. -/
theorem getCmValueFuel_eq {cbs : CbEnv} {repos : List RepoEntry} :
    ∀ n f1 f2 (v : JVal) (path : List PathEl), jsize v ≤ n →
      jsize v ≤ f1 → jsize v ≤ f2 →
      getCmValueFuel cbs repos f1 v path = getCmValueFuel cbs repos f2 v path := by
  intro n
  induction n with
  | zero =>
      intro f1 f2 v path h0 _ _
      have := jsize_pos v
      omega
  | succ n ih =>
      intro f1 f2 v path hn h1 h2
      have hp := jsize_pos v
      cases f1 with
      | zero => omega
      | succ f1 =>
          cases f2 with
          | zero => omega
          | succ f2 =>
              simp only [getCmValueFuel]
              apply getCmStep_congr
              intro w p hw
              exact ih f1 f2 w p (by omega) (by omega) (by omega)

/-- Enough fuel makes `getCmValueFuel` agree with `getCmValue`. -/
theorem getCmValueFuel_congr {cbs : CbEnv} {repos : List RepoEntry}
    {fuel : Nat} {v : JVal} {path : List PathEl} (h : jsize v ≤ fuel) :
    getCmValueFuel cbs repos fuel v path = getCmValue cbs repos v path := by
  rw [getCmValue]
  exact getCmValueFuel_eq (jsize v) fuel (jsize v + 1) v path le_rfl h (by omega)

/-- Pass-through rule of `getCmValue`: a value that is not shaped like a
macro is returned unchanged, whatever the repositories hold. -/
theorem getCmValue_passthrough {cbs : CbEnv} {repos : List RepoEntry}
    {v : JVal} {path : List PathEl} (h : hasCmKey v = false) :
    getCmValue cbs repos v path = .ok v := by
  rw [getCmValue]
  simp only [getCmValueFuel]
  cases v <;> simp_all [getCmStep, hasCmKey]

/-- Master unfolding of `getCmValue` on a macro node with a validated key:
the result is the lookup-then-default portion, then the callback step, then
the mandatory check. -/
theorem getCmValue_macroNode {cbs : CbEnv} {repos : List RepoEntry}
    {fields : List (String × JVal)} {k : String} {path : List PathEl}
    (h : lookupF fields CM.KEY_KEY = some (.str k)) (hk : ¬k = "") :
    getCmValue cbs repos (.obj fields) path =
      (defaultStep cbs repos fields k path).bind fun r1 =>
        (applyCallback cbs fields (.obj fields) r1 path).bind fun r2 =>
          mandatoryCheck fields path r2 := by
  rw [getCmValue]
  simp only [getCmValueFuel, getCmStep]
  have hkk : hasOwnF fields CM.KEY_KEY = true := by simp [hasOwnF, h]
  have hge : getOwnF fields CM.KEY_KEY = .str k := by simp [getOwnF, h]
  simp only [hkk, if_true]
  rw [hge]
  dsimp only
  rw [if_neg hk]
  rw [defaultStep]
  by_cases hc : (looseUndef
        (chainLookup (splitSlash (expandSearchKey k path)) (.obj fields) path repos)
      && hasOwnF fields CM.DEFAULT_KEY) = true
  · rw [if_pos hc, if_pos hc]
    have hd : (lookupF fields CM.DEFAULT_KEY).isSome := by
      have h2 := (Bool.and_eq_true _ _ |>.mp hc).2
      simpa [hasOwnF] using h2
    obtain ⟨d, hdv⟩ := Option.isSome_iff_exists.mp hd
    have hge2 : getOwnF fields CM.DEFAULT_KEY = d := by simp [getOwnF, hdv]
    have hlt : jsize (getOwnF fields CM.DEFAULT_KEY) ≤ jsize (.obj fields) := by
      rw [hge2]
      exact Nat.le_of_lt (lookupF_jsize_lt hdv)
    rw [getCmValueFuel_congr hlt]
  · rw [if_neg hc, if_neg hc]

/-- Repository entries whose resolver answers `undefined` are skipped by the
repository loop; the search continues in the remaining chain. -/
theorem chainLookup_append {segs : List String} {node : JVal}
    {path : List PathEl} {pre rest : List RepoEntry}
    (h : ∀ r ∈ pre, isUndef (r.resolver r.repository segs node path) = true) :
    chainLookup segs node path (pre ++ rest) = chainLookup segs node path rest := by
  induction pre with
  | nil => rfl
  | cons r pre ih =>
      have hr := h r (by simp)
      simp only [List.cons_append, chainLookup, hr, if_true]
      exact ih fun r' hr' => h r' (by simp [hr'])

/-- The repository loop stops at an entry whose resolver answers anything
strictly different from `undefined`, and returns that answer. -/
theorem chainLookup_found {segs : List String} {node : JVal}
    {path : List PathEl} {r : RepoEntry} {rest : List RepoEntry}
    (h : isUndef (r.resolver r.repository segs node path) = false) :
    chainLookup segs node path (r :: rest) =
      r.resolver r.repository segs node path := by
  simp only [chainLookup, h]
  rfl

/-! ### Lemmas about the tree updater -/

/-- `hasOwnProperty` agrees with membership in `Object.keys`. -/
theorem hasOwnF_eq_contains (fields : List (String × JVal)) (k : String) :
    hasOwnF fields k = (fields.map (fun q => q.1)).contains k := by
  induction fields with
  | nil => simp [hasOwnF, lookupF]
  | cons e rest ih =>
      obtain ⟨k', v'⟩ := e
      by_cases hk : k' = k
      · simp [hasOwnF, lookupF, hk]
      · have hkk : (k == k') = false :=
          beq_eq_false_iff_ne.mpr fun hh => hk hh.symm
        simp only [hasOwnF, lookupF, if_neg hk, List.map_cons, List.contains_cons,
          hkk, Bool.false_or]
        exact ih

/-- Lookup in an appended field list prefers the left part. -/
theorem lookupF_append_some {l1 l2 : List (String × JVal)} {k : String}
    {v : JVal} (h : lookupF l1 k = some v) : lookupF (l1 ++ l2) k = some v := by
  induction l1 with
  | nil => simp [lookupF] at h
  | cons e rest ih =>
      obtain ⟨k', v'⟩ := e
      by_cases hk : k' = k
      · simp_all [lookupF, hk]
      · simp only [lookupF, if_neg hk, List.cons_append] at *
        exact ih h

/-- Lookup in an appended field list falls through an absent left part. -/
theorem lookupF_append_none {l1 l2 : List (String × JVal)} {k : String}
    (h : lookupF l1 k = none) : lookupF (l1 ++ l2) k = lookupF l2 k := by
  induction l1 with
  | nil => rfl
  | cons e rest ih =>
      obtain ⟨k', v'⟩ := e
      by_cases hk : k' = k
      · simp_all [lookupF, hk]
      · simp only [lookupF, if_neg hk, List.cons_append] at *
        exact ih h

/-- Lookup in a list filtered by a predicate on keys. -/
theorem lookupF_filterKey (l : List (String × JVal)) (p : String → Bool)
    (k : String) :
    lookupF (l.filter fun e => p e.1) k = if p k then lookupF l k else none := by
  induction l with
  | nil => cases hp : p k <;> simp [lookupF, hp]
  | cons e rest ih =>
      obtain ⟨k', v'⟩ := e
      by_cases hk : k' = k
      · subst hk
        cases hp : p k' <;> simp [List.filter_cons, lookupF, hp, ih]
      · cases hp : p k' <;> simp [List.filter_cons, lookupF, hp, hk, ih]

/-- Writing one key leaves every other key's lookup unchanged. -/
theorem lookupF_setF_ne {fields : List (String × JVal)} {k k' : String}
    {v : JVal} (h : ¬k = k') :
    lookupF (setF fields k v) k' = lookupF fields k' := by
  induction fields with
  | nil => simp [setF, lookupF, h]
  | cons e rest ih =>
      obtain ⟨k'', v''⟩ := e
      by_cases hk : k'' = k
      · subst hk
        simp [setF, lookupF, h]
      · simp [setF, lookupF, hk, ih]

/-- Writing back the value a key already holds changes nothing. -/
theorem setF_id {fields : List (String × JVal)} {k : String} {v : JVal}
    (h : lookupF fields k = some v) : setF fields k v = fields := by
  induction fields with
  | nil => simp [lookupF] at h
  | cons e rest ih =>
      obtain ⟨k', v'⟩ := e
      by_cases hk : k' = k
      · simp_all [lookupF, setF, hk]
      · simp only [lookupF, if_neg hk] at h
        simp [setF, hk, ih h]

/-- A key the sibling result already defines is untouched by the copy-down. -/
theorem lookupF_copyFields_present {fallback : JVal}
    {rf : List (String × JVal)} {k : String} (h : hasOwnF rf k = true) :
    lookupF (copyFields fallback rf) k = lookupF rf k := by
  rw [copyFields]
  obtain ⟨v, hv⟩ := Option.isSome_iff_exists.mp h
  rw [hv]
  exact lookupF_append_some hv

/-- A key the sibling result lacks is looked up in the enumerated fallback
entries after the copy-down. -/
theorem lookupF_copyFields_absent {fallback : JVal}
    {rf : List (String × JVal)} {k : String} (h : hasOwnF rf k = false) :
    lookupF (copyFields fallback rf) k = lookupF (fallbackEntries fallback) k := by
  rw [copyFields]
  have hn : lookupF rf k = none := by
    simpa [hasOwnF, Option.isSome_iff_exists] using h
  rw [lookupF_append_none hn]
  have hcont : ((rf.map (fun q => q.1)).contains k) = false := by
    rw [← hasOwnF_eq_contains]
    exact h
  rw [lookupF_filterKey (fallbackEntries fallback)
    (fun s => !((rf.map (fun q => q.1)).contains s)) k]
  rw [hcont]
  simp

/-- When every enumerated fallback key is already present, the copy-down
appends nothing. -/
theorem copyFields_id {fallback : JVal} {rf : List (String × JVal)}
    (h : fbKeysPresent fallback (.obj rf) = true) :
    copyFields fallback rf = rf := by
  rw [copyFields]
  simp only [fbKeysPresent] at h
  have hall := List.all_eq_true.mp h
  have hnil : ((fallbackEntries fallback).filter
      fun e => !((rf.map (fun q => q.1)).contains e.1)) = [] := by
    rw [List.filter_eq_nil_iff]
    intro e he
    have h2 := hall e he
    rw [h2]
    simp
  rw [hnil, List.append_nil]

/-- `copyFallback` is the identity on a result that already carries every
fallback key (the array case is the identity by definition). -/
theorem copyFallback_id {fallback result : JVal}
    (h : fbKeysPresent fallback result = true) :
    copyFallback fallback result = result := by
  cases result <;> simp [copyFallback]
  exact copyFields_id h

/-- The traversal loop of a mapping node never rebinds the fallback key: the
`$defaults` entry of the output field list equals that of the input. -/
theorem goFields_fallback_eq
    {recurse : List PathEl → JVal → Except CuError JVal}
    {resolve : JVal → List PathEl → Except CuError JVal}
    {exclude : List String} {path : List PathEl} {fallback : JVal} :
    ∀ (ks : List String) (fields res : List (String × JVal)),
      goFields recurse resolve exclude path fallback ks fields = .ok res →
      lookupF res FALLBACK_KEY = lookupF fields FALLBACK_KEY := by
  intro ks
  induction ks with
  | nil =>
      intro fields res h
      simp only [goFields] at h
      injection h with h2
      rw [h2]
  | cons k ks ih =>
      intro fields res h
      simp only [goFields] at h
      by_cases hg : (isObjLike (getOwnF fields k) && !(k == FALLBACK_KEY)
          && !(exclude.contains k)) = true
      · rw [if_pos hg] at h
        have hB := (Bool.and_eq_true _ _ |>.mp
          (Bool.and_eq_true _ _ |>.mp hg).1).2
        have hkne : ¬k = FALLBACK_KEY := by simpa using hB
        cases hres : resolve (getOwnF fields k) (path ++ [.s k]) with
        | error e => rw [hres] at h; simp [Except.bind] at h
        | ok result =>
            rw [hres] at h
            simp only [Except.bind] at h
            by_cases ho : isObjLike result = true
            · rw [if_pos ho] at h
              cases hrec : recurse (path ++ [.s k])
                  (if isTruthy fallback then copyFallback fallback result
                   else result) with
              | error e => rw [hrec] at h; simp [Except.bind] at h
              | ok r2 =>
                  rw [hrec] at h
                  simp only [Except.bind] at h
                  rw [ih _ _ h, lookupF_setF_ne hkne]
            · rw [if_neg ho] at h
              rw [ih _ _ h]
              by_cases hne : jsLooseNe result (getOwnF fields k) = true
              · rw [if_pos hne, lookupF_setF_ne hkne]
              · rw [if_neg hne]
      · rw [if_neg hg] at h
        exact ih _ _ h

/-- `traverseConfig` on a mapping returns a mapping with the `$defaults`
entry unchanged: the fallback template is never resolved, replaced or
mutated by a traversal of the node that carries it. -/
theorem traverseConfig_fallback_eq {cbs : CbEnv} {repos : List RepoEntry}
    {exclude : List String} {fuel : Nat} {path : List PathEl}
    {fields : List (String × JVal)} {out : JVal}
    (h : traverseConfig cbs repos exclude fuel path (.obj fields) = .ok out) :
    ∃ fields', out = .obj fields' ∧
      lookupF fields' FALLBACK_KEY = lookupF fields FALLBACK_KEY := by
  cases fuel with
  | zero =>
      simp only [traverseConfig] at h
      injection h with h2
      exact ⟨fields, h2.symm, rfl⟩
  | succ fuel =>
      simp only [traverseConfig] at h
      cases hgo : goFields (traverseConfig cbs repos exclude fuel)
          (getCmValue cbs repos) exclude path (getOwnF fields FALLBACK_KEY)
          (fields.map fun q => q.1) fields with
      | error e => rw [hgo] at h; simp [Except.map] at h
      | ok res =>
          rw [hgo] at h
          simp only [Except.map] at h
          injection h with h2
          exact ⟨res, h2.symm, goFields_fallback_eq _ _ _ hgo⟩

/-- An object-like field value is stored under its key. -/
theorem lookupF_of_objLike {fields : List (String × JVal)} {k : String}
    (h : isObjLike (getOwnF fields k) = true) :
    lookupF fields k = some (getOwnF fields k) := by
  cases hl : lookupF fields k with
  | none => rw [getOwnF, hl] at h; simp [Option.getD, isObjLike] at h
  | some w => rw [getOwnF, hl]; rfl

/-- On a stable field list the traversal loop changes nothing. -/
theorem goFields_stable {cbs : CbEnv} {repos : List RepoEntry}
    {exclude : List String} {fuel : Nat} {path : List PathEl}
    (ihrec : ∀ (p : List PathEl) (w : JVal), stableF exclude fuel w = true →
      traverseConfig cbs repos exclude fuel p w = .ok w) :
    ∀ (ks : List String) (fields : List (String × JVal)),
      (∀ k ∈ ks,
        (if isObjLike (getOwnF fields k) && !(k == FALLBACK_KEY)
            && !(exclude.contains k) then
          !(hasCmKey (getOwnF fields k)) &&
          (!(isTruthy (getOwnF fields FALLBACK_KEY)) ||
            fbKeysPresent (getOwnF fields FALLBACK_KEY) (getOwnF fields k)) &&
          stableF exclude fuel (getOwnF fields k)
        else true) = true) →
      goFields (traverseConfig cbs repos exclude fuel) (getCmValue cbs repos)
        exclude path (getOwnF fields FALLBACK_KEY) ks fields = .ok fields := by
  intro ks
  induction ks with
  | nil => intro fields _; rfl
  | cons k ks ih =>
      intro fields hall
      have hk := hall k (by simp)
      simp only [goFields]
      by_cases hg : (isObjLike (getOwnF fields k) && !(k == FALLBACK_KEY)
          && !(exclude.contains k)) = true
      · rw [if_pos hg]
        rw [if_pos hg] at hk
        have hX := (Bool.and_eq_true _ _ |>.mp
          (Bool.and_eq_true _ _ |>.mp hk).1).1
        have hY := (Bool.and_eq_true _ _ |>.mp
          (Bool.and_eq_true _ _ |>.mp hk).1).2
        have hZ := (Bool.and_eq_true _ _ |>.mp hk).2
        have hobj := (Bool.and_eq_true _ _ |>.mp
          (Bool.and_eq_true _ _ |>.mp hg).1).1
        have hnomac : hasCmKey (getOwnF fields k) = false := by simpa using hX
        rw [getCmValue_passthrough hnomac]
        simp only [Except.bind]
        rw [if_pos hobj]
        have hres1 : (if isTruthy (getOwnF fields FALLBACK_KEY) then
            copyFallback (getOwnF fields FALLBACK_KEY) (getOwnF fields k)
          else getOwnF fields k) = getOwnF fields k := by
          by_cases ht : isTruthy (getOwnF fields FALLBACK_KEY) = true
          · rw [if_pos ht]
            apply copyFallback_id
            rcases Bool.or_eq_true _ _ |>.mp hY with hY1 | hY2
            · rw [ht] at hY1; simp at hY1
            · exact hY2
          · rw [if_neg ht]
        rw [hres1]
        rw [ihrec _ _ hZ]
        simp only [Except.bind]
        rw [setF_id (lookupF_of_objLike hobj)]
        exact ih fields fun k' hk' => hall k' (by simp [hk'])
      · rw [if_neg hg]
        exact ih fields fun k' hk' => hall k' (by simp [hk'])

/-- On a stable element list the traversal loop changes nothing. -/
theorem goElems_stable {cbs : CbEnv} {repos : List RepoEntry}
    {exclude : List String} {fuel : Nat} {path : List PathEl}
    (ihrec : ∀ (p : List PathEl) (w : JVal), stableF exclude fuel w = true →
      traverseConfig cbs repos exclude fuel p w = .ok w) :
    ∀ (xs : List JVal) (i : Nat),
      (∀ x ∈ xs, (if isObjLike x then
          !(hasCmKey x) && stableF exclude fuel x else true) = true) →
      goElems (traverseConfig cbs repos exclude fuel) (getCmValue cbs repos)
        path i xs = .ok xs := by
  intro xs
  induction xs with
  | nil => intro i _; rfl
  | cons x xs ih =>
      intro i hall
      have hx := hall x (by simp)
      simp only [goElems]
      by_cases ho : isObjLike x = true
      · rw [if_pos ho]
        rw [if_pos ho] at hx
        have hX := (Bool.and_eq_true _ _ |>.mp hx).1
        have hZ := (Bool.and_eq_true _ _ |>.mp hx).2
        have hnomac : hasCmKey x = false := by simpa using hX
        rw [getCmValue_passthrough hnomac]
        simp only [Except.bind]
        rw [if_pos ho]
        rw [ihrec _ _ hZ]
        simp only [Except.bind]
        rw [ih (i + 1) fun x' hx' => hall x' (by simp [hx'])]
      · rw [if_neg ho]
        simp only [Except.bind]
        rw [ih (i + 1) fun x' hx' => hall x' (by simp [hx'])]

/-- A stable tree is a fixed point of the traversal at every fuel. -/
theorem traverseConfig_stable {cbs : CbEnv} {repos : List RepoEntry}
    {exclude : List String} :
    ∀ (fuel : Nat) (path : List PathEl) (v : JVal),
      stableF exclude fuel v = true →
      traverseConfig cbs repos exclude fuel path v = .ok v := by
  intro fuel
  induction fuel with
  | zero => intro path v _; rfl
  | succ fuel ih =>
      intro path v h
      cases v with
      | obj fields =>
          simp only [traverseConfig]
          simp only [stableF] at h
          rw [goFields_stable ih (fields.map fun q => q.1) fields
            (List.all_eq_true.mp h)]
          rfl
      | arr xs =>
          simp only [traverseConfig]
          simp only [stableF] at h
          rw [goElems_stable ih xs 0 (List.all_eq_true.mp h)]
          rfl
      | undef => rfl
      | null => rfl
      | bool b => rfl
      | num n => rfl
      | str s => rfl
      | func i => rfl

/-! ### Lemmas about the repository chain -/

/-- Unregistering keeps a sublist of the names. -/
theorem unregister_names_sublist (chain : List RepoEntry) (name : String) :
    (chainNames (unregisterChain chain name)).Sublist (chainNames chain) := by
  induction chain with
  | nil => simp [unregisterChain, chainNames]
  | cons r rest ih =>
      by_cases hr : r.name = name
      · simp only [unregisterChain, if_pos hr, chainNames, List.map_cons]
        exact List.sublist_cons_of_sublist _ (List.Sublist.refl _)
      · simp only [unregisterChain, if_neg hr, chainNames, List.map_cons]
        exact List.Sublist.cons₂ _ ih

/-- Unregistering preserves distinctness of names. -/
theorem unregister_nodup {chain : List RepoEntry} {name : String}
    (h : (chainNames chain).Nodup) :
    (chainNames (unregisterChain chain name)).Nodup :=
  (unregister_names_sublist chain name).nodup h

/-- On a chain with distinct names, unregistering a name removes it. -/
theorem unregister_not_mem {chain : List RepoEntry} {name : String}
    (h : (chainNames chain).Nodup) :
    name ∉ chainNames (unregisterChain chain name) := by
  induction chain with
  | nil => simp [unregisterChain, chainNames]
  | cons r rest ih =>
      simp only [chainNames, List.map_cons, List.nodup_cons] at h
      by_cases hr : r.name = name
      · simp only [unregisterChain, if_pos hr]
        rw [← hr]
        exact fun hmem => h.1 hmem
      · simp only [unregisterChain, if_neg hr, chainNames, List.map_cons,
          List.mem_cons]
        rintro (h1 | h2)
        · exact hr h1.symm
        · exact ih h.2 h2
  
/-- The names after a splice are a permutation of the new name consed on. -/
theorem spliceIn_names_perm (i : Nat) (e : RepoEntry) (l : List RepoEntry) :
    (chainNames (spliceIn i e l)).Perm (e.name :: chainNames l) := by
  simp only [spliceIn, chainNames, List.map_append, List.map_cons]
  refine List.Perm.trans List.perm_middle ?h
  rw [← List.map_append, List.take_append_drop]

/-- `register` preserves distinctness of names (replace semantics: the prior
entry with the same name is removed before the insertion). -/
theorem register_nodup {chain : List RepoEntry} {name : String}
    {repository : JVal} {index : Nat} {resolver : Option Resolver}
    (h : (chainNames chain).Nodup) :
    (chainNames (registerChain chain name repository index resolver)).Nodup := by
  rw [registerChain]
  rw [List.Perm.nodup_iff (spliceIn_names_perm index _ _)]
  rw [List.nodup_cons]
  exact ⟨unregister_not_mem h, unregister_nodup h⟩

/-- The reset chain holds the single built-in entry. -/
theorem resetChain_names (envRepo : JVal) :
    chainNames (resetChain envRepo) = ["env"] := rfl

/-- Every chain mutation preserves distinctness of names. -/
theorem applyChainOp_nodup {envRepo : JVal} {chain : List RepoEntry}
    (op : ChainOp) (h : (chainNames chain).Nodup) :
    (chainNames (applyChainOp envRepo chain op)).Nodup := by
  cases op with
  | doRegister name repository index resolver => exact register_nodup h
  | doUnregister name => exact unregister_nodup h
  | doReset => rw [applyChainOp, resetChain_names]; simp

/-! ### Step-level helper lemmas -/

/-- A value that is not loosely `undefined` is not strictly `undefined`. -/
theorem isUndef_false_of_looseUndef_false {v : JVal}
    (h : looseUndef v = false) : isUndef v = false := by
  cases v <;> simp_all [isUndef, looseUndef]

/-- A falsy `$callback` value (absent, `undefined`, `0`, `""`, `false`,
`null`) skips the callback step without error. -/
theorem applyCallback_falsy {cbs : CbEnv} {fields : List (String × JVal)}
    {node r : JVal} {path : List PathEl}
    (h : isTruthy (getOwnF fields CM.CALLBACK_KEY) = false) :
    applyCallback cbs fields node r path = .ok r := by
  rw [applyCallback]
  simp [h]

/-- A result that is not loosely `undefined` passes the mandatory check. -/
theorem mandatoryCheck_notAbsent {fields : List (String × JVal)}
    {path : List PathEl} {r : JVal} (h : looseUndef r = false) :
    mandatoryCheck fields path r = .ok r := by
  rw [mandatoryCheck]
  simp [h]

/-- A loosely-`undefined` result with a truthy `$mandatory` raises. -/
theorem mandatoryCheck_mandatory {fields : List (String × JVal)}
    {path : List PathEl} {r : JVal} (h : looseUndef r = true)
    (hm : isTruthy (getOwnF fields CM.MANDATORY_KEY) = true) :
    mandatoryCheck fields path r = .error ⟨mandatoryMsg path⟩ := by
  rw [mandatoryCheck]
  simp [h, hm]

/-- Without a truthy `$mandatory` every result passes the mandatory check. -/
theorem mandatoryCheck_optional {fields : List (String × JVal)}
    {path : List PathEl} {r : JVal}
    (hm : isTruthy (getOwnF fields CM.MANDATORY_KEY) = false) :
    mandatoryCheck fields path r = .ok r := by
  rw [mandatoryCheck]
  simp [hm]

/-- A repository-loop answer that is not loosely `undefined` is final: the
default step returns it, whether or not a `$default` is declared. -/
theorem defaultStep_found {cbs : CbEnv} {repos : List RepoEntry}
    {fields : List (String × JVal)} {k : String} {path : List PathEl} {v : JVal}
    (hchain : chainLookup (splitSlash (expandSearchKey k path)) (.obj fields)
      path repos = v)
    (hv : looseUndef v = false) :
    defaultStep cbs repos fields k path = .ok v := by
  rw [defaultStep, hchain]
  simp [hv]

/-- A loosely-absent repository-loop answer falls through to the recursive
resolution of a declared `$default`. -/
theorem defaultStep_absent {cbs : CbEnv} {repos : List RepoEntry}
    {fields : List (String × JVal)} {k : String} {path : List PathEl}
    (hab : looseUndef (chainLookup (splitSlash (expandSearchKey k path))
      (.obj fields) path repos) = true)
    (hd : hasOwnF fields CM.DEFAULT_KEY = true) :
    defaultStep cbs repos fields k path =
      getCmValue cbs repos (getOwnF fields CM.DEFAULT_KEY)
        (path ++ [.s "CM.DEFAULT_KEY"]) := by
  rw [defaultStep]
  simp [hab, hd]

/-- A loosely-absent repository-loop answer with no declared `$default` is
returned as is. -/
theorem defaultStep_absent_nodefault {cbs : CbEnv} {repos : List RepoEntry}
    {fields : List (String × JVal)} {k : String} {path : List PathEl}
    (hd : hasOwnF fields CM.DEFAULT_KEY = false) :
    defaultStep cbs repos fields k path =
      .ok (chainLookup (splitSlash (expandSearchKey k path)) (.obj fields)
        path repos) := by
  rw [defaultStep]
  simp [hd]

/-! ### The claims -/

/-- C1: for every repository chain and every macro node, resolution
(`getCmValue`) queries the registered repositories strictly in chain order
and the first resolver answer that is not the absent marker (`undefined`)
becomes the outcome; in particular, when the sources at index 0 and index 1
both define the macro's key, the index-0 value is returned and no later
repository's answer (a universally quantified `post`) influences the
result.  Scope: the macro declares no truthy callback (a callback would
transform the outcome afterwards, cf. C7) and the found value is not `null`
(a `null` find diverts to the default/mandatory steps, cf. C10). -/
theorem c1_repository_priority (cbs : CbEnv) (path : List PathEl)
    (fields : List (String × JVal)) (k : String)
    (pre post : List RepoEntry) (e : RepoEntry) (v : JVal)
    (hkey : lookupF fields CM.KEY_KEY = some (.str k)) (hk : ¬k = "")
    (hcb : isTruthy (getOwnF fields CM.CALLBACK_KEY) = false)
    (hpre : ∀ r ∈ pre, isUndef (r.resolver r.repository
        (splitSlash (expandSearchKey k path)) (.obj fields) path) = true)
    (he : e.resolver e.repository (splitSlash (expandSearchKey k path))
        (.obj fields) path = v)
    (hv : looseUndef v = false) :
    chainLookup (splitSlash (expandSearchKey k path)) (.obj fields) path
        (pre ++ e :: post) = v ∧
    getCmValue cbs (pre ++ e :: post) (.obj fields) path = .ok v := by
  have hchain : chainLookup (splitSlash (expandSearchKey k path)) (.obj fields)
      path (pre ++ e :: post) = v := by
    rw [chainLookup_append hpre,
      chainLookup_found (by rw [he]; exact isUndef_false_of_looseUndef_false hv)]
    exact he
  refine ⟨hchain, ?g⟩
  rw [getCmValue_macroNode hkey hk, defaultStep_found hchain hv]
  simp only [Except.bind]
  rw [applyCallback_falsy hcb]
  simp only [Except.bind]
  exact mandatoryCheck_notAbsent hv

/-- C1 witness: two repositories both define "k" (index 0 maps it to `1`,
index 1 to `2`); resolution returns the index-0 value `1`. -/
theorem c1_repository_priority_witness :
    getCmValue (fun _ _ _ _ => .undef)
      [⟨"a", default_resolver, .obj [("k", .num 1)]⟩,
       ⟨"b", default_resolver, .obj [("k", .num 2)]⟩]
      (.obj [(CM.KEY_KEY, .str "k")]) [] = .ok (.num 1) :=
  (c1_repository_priority (fun _ _ _ _ => .undef) [] [(CM.KEY_KEY, .str "k")]
    "k" [] [⟨"b", default_resolver, .obj [("k", .num 2)]⟩]
    ⟨"a", default_resolver, .obj [("k", .num 1)]⟩ (.num 1)
    rfl (by decide) rfl (by simp) rfl rfl).2

/-- C2: a falsy-but-present value (`0`, `""`, `false`) found in the chain is
itself the result of resolution: it terminates the repository search (any
`post` is irrelevant), it does not fall through to the macro's `$default`
and it does not trigger the mandatory error — `fields` is arbitrary, so the
macro may well declare both `$default` and `$mandatory`.  Scope: no truthy
callback is declared (a callback would transform the returned value, cf.
C7). -/
theorem c2_falsy_values (cbs : CbEnv) (path : List PathEl)
    (fields : List (String × JVal)) (k : String)
    (pre post : List RepoEntry) (e : RepoEntry) (v : JVal)
    (hkey : lookupF fields CM.KEY_KEY = some (.str k)) (hk : ¬k = "")
    (hcb : isTruthy (getOwnF fields CM.CALLBACK_KEY) = false)
    (hpre : ∀ r ∈ pre, isUndef (r.resolver r.repository
        (splitSlash (expandSearchKey k path)) (.obj fields) path) = true)
    (he : e.resolver e.repository (splitSlash (expandSearchKey k path))
        (.obj fields) path = v)
    (hfalsy : v = .num 0 ∨ v = .str "" ∨ v = .bool false) :
    chainLookup (splitSlash (expandSearchKey k path)) (.obj fields) path
        (pre ++ e :: post) = v ∧
    getCmValue cbs (pre ++ e :: post) (.obj fields) path = .ok v := by
  have hv : looseUndef v = false := by
    rcases hfalsy with h | h | h <;> rw [h] <;> rfl
  have hchain : chainLookup (splitSlash (expandSearchKey k path)) (.obj fields)
      path (pre ++ e :: post) = v := by
    rw [chainLookup_append hpre,
      chainLookup_found (by rw [he]; exact isUndef_false_of_looseUndef_false hv)]
    exact he
  refine ⟨hchain, ?g⟩
  rw [getCmValue_macroNode hkey hk, defaultStep_found hchain hv]
  simp only [Except.bind]
  rw [applyCallback_falsy hcb]
  simp only [Except.bind]
  exact mandatoryCheck_notAbsent hv

/-- C2 witness: the source maps "z" to `0` and the macro declares both a
default and the mandatory flag; resolution returns `0` itself. -/
theorem c2_falsy_values_witness :
    getCmValue (fun _ _ _ _ => .undef)
      [⟨"z", default_resolver, .obj [("z", .num 0)]⟩]
      (.obj [(CM.KEY_KEY, .str "z"), (CM.DEFAULT_KEY, .str "D"),
             (CM.MANDATORY_KEY, .bool true)]) [] = .ok (.num 0) :=
  (c2_falsy_values (fun _ _ _ _ => .undef) []
    [(CM.KEY_KEY, .str "z"), (CM.DEFAULT_KEY, .str "D"),
     (CM.MANDATORY_KEY, .bool true)] "z"
    [] [] ⟨"z", default_resolver, .obj [("z", .num 0)]⟩ (.num 0)
    rfl (by decide) rfl (by simp) rfl (Or.inl rfl)).2

/-- Shared helper for C5 and C10: a loosely-absent chain answer plus a
declared `$default` (and neither a truthy callback nor a truthy mandatory
flag) makes resolution equal the recursive resolution of the default. -/
theorem getCmValue_absent_default {cbs : CbEnv} {repos : List RepoEntry}
    {path : List PathEl} {fields : List (String × JVal)} {k : String} {d : JVal}
    (hkey : lookupF fields CM.KEY_KEY = some (.str k)) (hk : ¬k = "")
    (hcb : isTruthy (getOwnF fields CM.CALLBACK_KEY) = false)
    (hm : isTruthy (getOwnF fields CM.MANDATORY_KEY) = false)
    (hab : looseUndef (chainLookup (splitSlash (expandSearchKey k path))
        (.obj fields) path repos) = true)
    (hd : lookupF fields CM.DEFAULT_KEY = some d) :
    getCmValue cbs repos (.obj fields) path =
      getCmValue cbs repos d (path ++ [.s "CM.DEFAULT_KEY"]) := by
  rw [getCmValue_macroNode hkey hk,
    defaultStep_absent hab (by simp [hasOwnF, hd])]
  have hged : getOwnF fields CM.DEFAULT_KEY = d := by simp [getOwnF, hd]
  rw [hged]
  cases hres : getCmValue cbs repos d (path ++ [.s "CM.DEFAULT_KEY"]) with
  | error e => simp [Except.bind]
  | ok r =>
      simp only [Except.bind]
      rw [applyCallback_falsy hcb]
      simp only [Except.bind]
      exact mandatoryCheck_optional hm

/-- C5: when the repository chain yields a loosely-absent answer and the
macro declares a `$default`, resolution equals the recursive resolution of
the declared default value under the same path extended with the synthetic
marker entry — so a default that is itself a macro forms a chain.  Scope:
no truthy callback and no truthy mandatory flag on the outer macro (those
steps would postprocess the recursive answer). -/
theorem c5_default_chain (cbs : CbEnv) (repos : List RepoEntry)
    (path : List PathEl) (fields : List (String × JVal)) (k : String) (d : JVal)
    (hkey : lookupF fields CM.KEY_KEY = some (.str k)) (hk : ¬k = "")
    (hcb : isTruthy (getOwnF fields CM.CALLBACK_KEY) = false)
    (hm : isTruthy (getOwnF fields CM.MANDATORY_KEY) = false)
    (hab : looseUndef (chainLookup (splitSlash (expandSearchKey k path))
        (.obj fields) path repos) = true)
    (hd : lookupF fields CM.DEFAULT_KEY = some d) :
    getCmValue cbs repos (.obj fields) path =
      getCmValue cbs repos d (path ++ [.s "CM.DEFAULT_KEY"]) :=
  getCmValue_absent_default hkey hk hcb hm hab hd

/-- C5 witness: the spec's double-default example resolved against an empty
chain: `{$$: "missing1", $default: {$$: "missing2", $default: "X"}}`
evaluates to `"X"`. -/
theorem c5_default_chain_witness :
    getCmValue (fun _ _ _ _ => .undef) []
      (.obj [(CM.KEY_KEY, .str "missing1"),
             (CM.DEFAULT_KEY, .obj [(CM.KEY_KEY, .str "missing2"),
                                    (CM.DEFAULT_KEY, .str "X")])]) []
      = .ok (.str "X") :=
  (c5_default_chain (fun _ _ _ _ => .undef) [] []
    [(CM.KEY_KEY, .str "missing1"),
     (CM.DEFAULT_KEY, .obj [(CM.KEY_KEY, .str "missing2"),
                            (CM.DEFAULT_KEY, .str "X")])]
    "missing1" (.obj [(CM.KEY_KEY, .str "missing2"), (CM.DEFAULT_KEY, .str "X")])
    rfl (by decide) rfl rfl rfl rfl).trans rfl

/-- C6: with the pipeline outcome after repository lookup, default
resolution (`defaultStep`) and the callback step (`applyCallback`) still
loosely absent, a truthy `$mandatory` makes resolution fail with the
configuration error whose text carries the full joined path, while without
a truthy `$mandatory` the absent outcome is returned as a legal value. -/
theorem c6_mandatory_enforcement (cbs : CbEnv) (repos : List RepoEntry)
    (path : List PathEl) (fields : List (String × JVal)) (k : String)
    (a b : JVal)
    (hkey : lookupF fields CM.KEY_KEY = some (.str k)) (hk : ¬k = "")
    (hds : defaultStep cbs repos fields k path = .ok a)
    (hcba : applyCallback cbs fields (.obj fields) a path = .ok b)
    (habs : looseUndef b = true) :
    (isTruthy (getOwnF fields CM.MANDATORY_KEY) = true →
      getCmValue cbs repos (.obj fields) path = .error ⟨mandatoryMsg path⟩) ∧
    (isTruthy (getOwnF fields CM.MANDATORY_KEY) = false →
      getCmValue cbs repos (.obj fields) path = .ok b) := by
  constructor <;> intro hm <;>
    rw [getCmValue_macroNode hkey hk, hds] <;>
    simp only [Except.bind] <;> rw [hcba] <;> simp only [Except.bind]
  · exact mandatoryCheck_mandatory habs hm
  · exact mandatoryCheck_optional hm

/-- C6 witness: `{$$: "missing", $mandatory: true}` against an empty chain
raises the mandatory error naming the path, while `{$$: "missing"}` returns
the absent marker as a legal value. -/
theorem c6_mandatory_enforcement_witness :
    getCmValue (fun _ _ _ _ => .undef) []
      (.obj [(CM.KEY_KEY, .str "missing"), (CM.MANDATORY_KEY, .bool true)])
      [.s "p", .s "q"]
      = .error ⟨"Property \"p/q\" is mandatory."⟩ ∧
    getCmValue (fun _ _ _ _ => .undef) []
      (.obj [(CM.KEY_KEY, .str "missing")]) [.s "p"] = .ok .undef :=
  ⟨(c6_mandatory_enforcement (fun _ _ _ _ => .undef) [] [.s "p", .s "q"]
      [(CM.KEY_KEY, .str "missing"), (CM.MANDATORY_KEY, .bool true)]
      "missing" .undef .undef rfl (by decide) rfl rfl rfl).1 rfl,
   (c6_mandatory_enforcement (fun _ _ _ _ => .undef) [] [.s "p"]
      [(CM.KEY_KEY, .str "missing")]
      "missing" .undef .undef rfl (by decide) rfl rfl rfl).2 rfl⟩

/-- C7 counterexample: the macro `{$$: "k", $callback: 0}` declares a
callback whose value `0` is not an invocable function, yet resolution does
not raise the invalid-callback error: the falsy callback value is silently
skipped (`if (callback)` in the source) and the repository value is
returned. -/
theorem c7_counterexample :
    getCmValue (fun _ _ _ _ => .undef)
      [⟨"r", default_resolver, .obj [("k", .str "v")]⟩]
      (.obj [(CM.KEY_KEY, .str "k"), (CM.CALLBACK_KEY, .num 0)]) []
      = .ok (.str "v") ∧
    (Except.ok (JVal.str "v") : Except CuError JVal) ≠ .error ⟨callbackMsg⟩ :=
  ⟨rfl, by simp⟩

/-- C7 amended: a declared `$callback` whose value is truthy but not an
invocable function makes resolution raise the invalid-callback
configuration error (a declared falsy callback value is ignored instead,
see the counterexample).  The hypothesis on `defaultStep` pins the earlier
lookup/default stage to a non-raising outcome, so the callback check is the
step that fails. -/
theorem c7_invalid_callback (cbs : CbEnv) (repos : List RepoEntry)
    (path : List PathEl) (fields : List (String × JVal)) (k : String) (a : JVal)
    (hkey : lookupF fields CM.KEY_KEY = some (.str k)) (hk : ¬k = "")
    (hds : defaultStep cbs repos fields k path = .ok a)
    (hcbt : isTruthy (getOwnF fields CM.CALLBACK_KEY) = true)
    (hcbf : ∀ id, getOwnF fields CM.CALLBACK_KEY ≠ .func id) :
    getCmValue cbs repos (.obj fields) path = .error ⟨callbackMsg⟩ := by
  rw [getCmValue_macroNode hkey hk, hds]
  simp only [Except.bind]
  rw [applyCallback]
  -- simp eliminates the function arm of the callback match using hcbf
  simp only [hcbt, if_true]

/-- C7 amended witness: `{$$: "k", $callback: 7}` raises the
invalid-callback error. -/
theorem c7_invalid_callback_witness :
    getCmValue (fun _ _ _ _ => .undef)
      [⟨"r", default_resolver, .obj [("k", .str "v")]⟩]
      (.obj [(CM.KEY_KEY, .str "k"), (CM.CALLBACK_KEY, .num 7)]) []
      = .error ⟨"The callback-property must be a function"⟩ :=
  c7_invalid_callback (fun _ _ _ _ => .undef)
    [⟨"r", default_resolver, .obj [("k", .str "v")]⟩] []
    [(CM.KEY_KEY, .str "k"), (CM.CALLBACK_KEY, .num 7)] "k" (.str "v")
    rfl (by decide) rfl rfl (fun id h => JVal.noConfusion h)

/-- C10: a resolver that answers `null` (not the `undefined` marker)
terminates the repository search — the entries in `post` are universally
quantified, so no lower-priority repository is consulted — yet `null` still
counts as loosely absent afterwards: with a declared `$default` the default
is resolved recursively, and without one a truthy `$mandatory` raises.
Scope: no truthy callback on the macro; the default branch additionally
assumes no truthy mandatory flag, which would postprocess the recursive
answer. -/
theorem c10_null_terminates_but_absent (cbs : CbEnv) (path : List PathEl)
    (fields : List (String × JVal)) (k : String)
    (pre post : List RepoEntry) (e : RepoEntry)
    (hkey : lookupF fields CM.KEY_KEY = some (.str k)) (hk : ¬k = "")
    (hcb : isTruthy (getOwnF fields CM.CALLBACK_KEY) = false)
    (hpre : ∀ r ∈ pre, isUndef (r.resolver r.repository
        (splitSlash (expandSearchKey k path)) (.obj fields) path) = true)
    (he : e.resolver e.repository (splitSlash (expandSearchKey k path))
        (.obj fields) path = .null) :
    chainLookup (splitSlash (expandSearchKey k path)) (.obj fields) path
        (pre ++ e :: post) = .null ∧
    (∀ d, lookupF fields CM.DEFAULT_KEY = some d →
      isTruthy (getOwnF fields CM.MANDATORY_KEY) = false →
      getCmValue cbs (pre ++ e :: post) (.obj fields) path =
        getCmValue cbs (pre ++ e :: post) d (path ++ [.s "CM.DEFAULT_KEY"])) ∧
    (lookupF fields CM.DEFAULT_KEY = none →
      isTruthy (getOwnF fields CM.MANDATORY_KEY) = true →
      getCmValue cbs (pre ++ e :: post) (.obj fields) path =
        .error ⟨mandatoryMsg path⟩) := by
  have hchain : chainLookup (splitSlash (expandSearchKey k path)) (.obj fields)
      path (pre ++ e :: post) = .null := by
    rw [chainLookup_append hpre, chainLookup_found (by rw [he]; rfl)]
    exact he
  have hab : looseUndef (chainLookup (splitSlash (expandSearchKey k path))
      (.obj fields) path (pre ++ e :: post)) = true := by rw [hchain]; rfl
  refine ⟨hchain, fun d hd hm => ?gd, fun hd hm => ?gm⟩
  · exact getCmValue_absent_default hkey hk hcb hm hab hd
  · rw [getCmValue_macroNode hkey hk,
      defaultStep_absent_nodefault (by simp [hasOwnF, hd]), hchain]
    simp only [Except.bind]
    rw [applyCallback_falsy hcb]
    simp only [Except.bind]
    exact mandatoryCheck_mandatory rfl hm

/-- C10 witness: a top-priority resolver answering `null` suppresses an
index-1 source that defines the key (`k: 2`): with a declared default the
default `"D"` is used, and with a mandatory flag and no default the
mandatory error is raised. -/
theorem c10_null_terminates_but_absent_witness :
    getCmValue (fun _ _ _ _ => .undef)
      [⟨"n", fun _ _ _ _ => .null, .obj []⟩,
       ⟨"b", default_resolver, .obj [("k", .num 2)]⟩]
      (.obj [(CM.KEY_KEY, .str "k"), (CM.DEFAULT_KEY, .str "D")]) []
      = .ok (.str "D") ∧
    getCmValue (fun _ _ _ _ => .undef)
      [⟨"n", fun _ _ _ _ => .null, .obj []⟩]
      (.obj [(CM.KEY_KEY, .str "k"), (CM.MANDATORY_KEY, .bool true)]) [.s "p"]
      = .error ⟨"Property \"p\" is mandatory."⟩ :=
  ⟨((c10_null_terminates_but_absent (fun _ _ _ _ => .undef) []
      [(CM.KEY_KEY, .str "k"), (CM.DEFAULT_KEY, .str "D")] "k"
      [] [⟨"b", default_resolver, .obj [("k", .num 2)]⟩]
      ⟨"n", fun _ _ _ _ => .null, .obj []⟩
      rfl (by decide) rfl (by simp) rfl).2.1 (.str "D") rfl rfl).trans rfl,
   (c10_null_terminates_but_absent (fun _ _ _ _ => .undef) [.s "p"]
      [(CM.KEY_KEY, .str "k"), (CM.MANDATORY_KEY, .bool true)] "k"
      [] [] ⟨"n", fun _ _ _ _ => .null, .obj []⟩
      rfl (by decide) rfl (by simp) rfl).2.2 rfl rfl⟩

/-- C3 counterexample: for the node at path `["a", "arr", 0, "field"]`
(a mapping field inside element 0 of the sequence stored under "arr"), the
nearest enclosing mapping-key segment skipping only the numeric segment is
"arr" — the claim therefore predicts search key "arr_S" — but the scan in
`getCmValue` also skips the sequence's own key and uses "a_S": against a
repository defining both "arr_S" (value "v") and "a_S" (value "w"),
resolution returns "w", not "v". -/
theorem c3_counterexample :
    specNearestNamedAncestor [.s "a", .s "arr", .n 0, .s "field"] = "arr" ∧
    expandSearchKey "?_S" [.s "a", .s "arr", .n 0, .s "field"] = "a_S" ∧
    getCmValue (fun _ _ _ _ => .undef)
      [⟨"r", default_resolver, .obj [("arr_S", .str "v"), ("a_S", .str "w")]⟩]
      (.obj [(CM.KEY_KEY, .str "?_S")]) [.s "a", .s "arr", .n 0, .s "field"]
      = .ok (.str "w") ∧
    (Except.ok (JVal.str "w") : Except CuError JVal) ≠ .ok (.str "v") :=
  ⟨rfl, rfl, rfl, by simp⟩

/-- In skip-run state the scan consumes a whole numeric run and then the
adjacent entry (the sequence's own key) before resuming the search. -/
theorem scanGo_true_nums (ms : List Nat) (a : String) (r : List PathEl) :
    scanGo true (ms.map PathEl.n ++ .s a :: r) = scanGo false r := by
  induction ms with
  | nil => rfl
  | cons m ms ih =>
      simp only [List.map_cons, List.cons_append, scanGo]
      exact ih

/-- In search state a nonempty numeric run plus the adjacent sequence key is
skipped entirely. -/
theorem scanGo_false_run (n0 : Nat) (ns : List Nat) (a : String)
    (r : List PathEl) :
    scanGo false ((n0 :: ns).map PathEl.n ++ .s a :: r) = scanGo false r := by
  simp only [List.map_cons, List.cons_append, scanGo]
  exact scanGo_true_nums ns a r

/-- The parent scan is transparent across a sequence boundary: a node
reached through a sequence (its key plus a nonempty run of indices) sees
the same parent as a node attached directly below the sequence's parent. -/
theorem parentScan_array_transparent (p : List PathEl) (aname : String)
    (idxs : List Nat) (field : String) (hne : idxs ≠ []) :
    parentScan (p ++ PathEl.s aname :: idxs.map PathEl.n ++ [PathEl.s field]) =
      parentScan (p ++ [PathEl.s field]) := by
  obtain ⟨m, ms, rfl⟩ := List.exists_cons_of_ne_nil hne
  have hrev1 : ((p ++ PathEl.s aname :: (m :: ms).map PathEl.n
        ++ [PathEl.s field]).reverse)
      = PathEl.s field :: (((m :: ms).reverse).map PathEl.n
        ++ PathEl.s aname :: p.reverse) := by
    simp [List.reverse_append, List.map_reverse]
  have hrev2 : ((p ++ [PathEl.s field]).reverse)
      = PathEl.s field :: p.reverse := by
    simp [List.reverse_append]
  rw [parentScan, hrev1, parentScan, hrev2]
  dsimp only
  cases hrl : (m :: ms).reverse with
  | nil => exact absurd hrl (by simp)
  | cons n0 ns => exact scanGo_false_run n0 ns aname p.reverse

/-- A parent-marker key starts with "?". -/
theorem startsWithQm_append (suffix : String) :
    startsWithQm ("?" ++ suffix) = true := by
  have hd : ("?" ++ suffix).data = '?' :: suffix.data := by
    simp [String.data_append]
  rw [startsWithQm, hd]
  rfl

/-- Dropping the marker from "?" ++ suffix leaves the suffix. -/
theorem qm_drop (suffix : String) : ("?" ++ suffix).drop 1 = suffix := by
  have hd : ("?" ++ suffix).data.drop 1 = suffix.data := by
    simp [String.data_append]
  rw [String.drop_eq, hd]

/-- Expansion of a parent-marker key substitutes the scanned parent. -/
theorem expandSearchKey_qm (suffix : String) (path : List PathEl) :
    expandSearchKey ("?" ++ suffix) path = parentScan path ++ suffix := by
  rw [expandSearchKey, startsWithQm_append, qm_drop]
  rfl

/-- C3 amended: parent-dependent expansion replaces the marker with the
parent found by scanning the path backward from the node's own entry, where
each maximal run of numeric (sequence-index) segments is skipped together
with the immediately preceding named segment (the sequence's own key): a
node inside a sequence therefore uses the same parent name as the sequence
itself, not the sequence's key.  In particular, on an all-named path the
nearest preceding named segment is the parent: `["branchA", "field"]` with
key "?_SUFFIX" yields search key "branchA_SUFFIX". -/
theorem c3_parent_dependent_expansion :
    (∀ (p : List PathEl) (aname : String) (idxs : List Nat)
        (field suffix : String), idxs ≠ [] →
      expandSearchKey ("?" ++ suffix)
          (p ++ PathEl.s aname :: idxs.map PathEl.n ++ [PathEl.s field]) =
        expandSearchKey ("?" ++ suffix) (p ++ [PathEl.s field])) ∧
    (∀ (branch field suffix : String),
      expandSearchKey ("?" ++ suffix) [.s branch, .s field] = branch ++ suffix) := by
  constructor
  · intro p aname idxs field suffix hne
    rw [expandSearchKey_qm, expandSearchKey_qm,
      parentScan_array_transparent p aname idxs field hne]
  · intro branch field suffix
    rw [expandSearchKey_qm]
    rfl

/-- C3 amended witness: with the sequence "arr" between, the node at
`["a", "arr", 0, "field"]` expands "?_SUFFIX" with parent "a", exactly as
the same node attached at `["a", "field"]` would; and the claim's own
example `["branchA", "field"]` yields "branchA_SUFFIX". -/
theorem c3_parent_dependent_expansion_witness :
    expandSearchKey ("?" ++ "_SUFFIX")
        [PathEl.s "a", PathEl.s "arr", PathEl.n 0, PathEl.s "field"] =
      expandSearchKey ("?" ++ "_SUFFIX") [PathEl.s "a", PathEl.s "field"] ∧
    expandSearchKey ("?" ++ "_SUFFIX") [.s "branchA", .s "field"] =
      "branchA" ++ "_SUFFIX" :=
  ⟨c3_parent_dependent_expansion.1 [PathEl.s "a"] "arr" [0] "field" "_SUFFIX"
      (by simp),
   c3_parent_dependent_expansion.2 "branchA" "field" "_SUFFIX"⟩

/-- C8: starting from the freshly constructed updater (whose constructor
performs a reset) and applying any finite sequence of register, unregister
and reset operations, the repository chain holds at most one entry per
name: `register` removes any prior entry with the same name before
splicing in the new one, so no name collision ever survives. -/
theorem c8_unique_names (envRepo : JVal) (ops : List ChainOp) :
    (chainNames (ops.foldl (applyChainOp envRepo) (resetChain envRepo))).Nodup := by
  have hinit : (chainNames (resetChain envRepo)).Nodup := by
    rw [resetChain_names]
    simp
  suffices h : ∀ chain : List RepoEntry, (chainNames chain).Nodup →
      (chainNames (ops.foldl (applyChainOp envRepo) chain)).Nodup from
    h _ hinit
  induction ops with
  | nil => intro chain h; exact h
  | cons op ops ih =>
      intro chain h
      exact ih _ (applyChainOp_nodup op h)

/-- C4: the fallback-template copy-down of `updateConfig`.
(a) A key the sibling's resolved mapping result already defines keeps its
value; (b) a key it lacks receives the enumerated template entry, shallowly
and as-is; (c) for a processed sibling whose resolved result is an object
under a truthy template, the copy happens before the recursive descent and
the descent receives exactly the copied-down result; (d) the template entry
itself is skipped by the traversal — never handed to the resolution engine
— and is returned unchanged in the output. -/
theorem c4_fallback_template :
    (∀ (fallback : JVal) (rf : List (String × JVal)) (k : String),
      hasOwnF rf k = true →
      lookupF (copyFields fallback rf) k = lookupF rf k) ∧
    (∀ (fallback : JVal) (rf : List (String × JVal)) (k : String),
      hasOwnF rf k = false →
      lookupF (copyFields fallback rf) k = lookupF (fallbackEntries fallback) k) ∧
    (∀ (cbs : CbEnv) (repos : List RepoEntry) (exclude : List String)
        (fuel : Nat) (path : List PathEl) (fallback : JVal)
        (fields : List (String × JVal)) (k : String) (ks : List String)
        (result : JVal),
      isObjLike (getOwnF fields k) = true → (k == FALLBACK_KEY) = false →
      exclude.contains k = false →
      getCmValue cbs repos (getOwnF fields k) (path ++ [.s k]) = .ok result →
      isObjLike result = true → isTruthy fallback = true →
      goFields (traverseConfig cbs repos exclude fuel) (getCmValue cbs repos)
          exclude path fallback (k :: ks) fields =
        (traverseConfig cbs repos exclude fuel (path ++ [.s k])
            (copyFallback fallback result)).bind fun result2 =>
          goFields (traverseConfig cbs repos exclude fuel)
            (getCmValue cbs repos) exclude path fallback ks
            (setF fields k result2)) ∧
    (∀ (cbs : CbEnv) (repos : List RepoEntry) (exclude : List String)
        (fuel : Nat) (path : List PathEl) (fields : List (String × JVal))
        (out : JVal),
      traverseConfig cbs repos exclude fuel path (.obj fields) = .ok out →
      ∃ fields', out = .obj fields' ∧
        lookupF fields' FALLBACK_KEY = lookupF fields FALLBACK_KEY) := by
  refine ⟨fun fallback rf k h => lookupF_copyFields_present h,
          fun fallback rf k h => lookupF_copyFields_absent h,
          ?gc, fun cbs repos exclude fuel path fields out h =>
            traverseConfig_fallback_eq h⟩
  intro cbs repos exclude fuel path fallback fields k ks result
    hobj hkfb hexc hres hores hft
  simp only [goFields]
  rw [if_pos (by rw [hobj, hkfb, hexc]; rfl)]
  rw [hres]
  simp only [Except.bind]
  rw [if_pos hores, if_pos hft]

/-- C4 witness: instantiating the four parts on the end-to-end example
`{$defaults: {url: "fallback"}, branch: {}}`: the empty sibling receives
the template entry, a sibling defining `url` keeps its own value, the step
equation holds on the root, and the template entry survives the traversal
untouched. -/
theorem c4_fallback_template_witness :
    lookupF (copyFields (.obj [("url", .str "fallback")]) [("url", .str "mine")])
      "url" = some (.str "mine") ∧
    lookupF (copyFields (.obj [("url", .str "fallback")]) []) "url" =
      some (.str "fallback") ∧
    goFields (traverseConfig (fun _ _ _ _ => .undef) [] [] 8)
        (getCmValue (fun _ _ _ _ => .undef) []) [] []
        (.obj [("url", .str "fallback")]) ["branch"]
        [(FALLBACK_KEY, .obj [("url", .str "fallback")]), ("branch", .obj [])] =
      (traverseConfig (fun _ _ _ _ => .undef) [] [] 8 [.s "branch"]
          (copyFallback (.obj [("url", .str "fallback")]) (.obj []))).bind
        (fun result2 =>
          goFields (traverseConfig (fun _ _ _ _ => .undef) [] [] 8)
            (getCmValue (fun _ _ _ _ => .undef) []) [] []
            (.obj [("url", .str "fallback")]) []
            (setF [(FALLBACK_KEY, .obj [("url", .str "fallback")]),
                   ("branch", .obj [])] "branch" result2)) ∧
    (∃ fields', (JVal.obj [(FALLBACK_KEY, .obj [("url", .str "fallback")]),
        ("branch", .obj [("url", .str "fallback")])]) = .obj fields' ∧
      lookupF fields' FALLBACK_KEY =
        lookupF [(FALLBACK_KEY, .obj [("url", .str "fallback")]),
                 ("branch", .obj [])] FALLBACK_KEY) :=
  ⟨(c4_fallback_template.1 (.obj [("url", .str "fallback")])
      [("url", .str "mine")] "url" rfl).trans rfl,
   (c4_fallback_template.2.1 (.obj [("url", .str "fallback")]) [] "url"
      rfl).trans rfl,
   c4_fallback_template.2.2.1 (fun _ _ _ _ => .undef) [] [] 8 []
     (.obj [("url", .str "fallback")])
     [(FALLBACK_KEY, .obj [("url", .str "fallback")]), ("branch", .obj [])]
     "branch" [] (.obj []) rfl rfl rfl rfl rfl rfl,
   c4_fallback_template.2.2.2 (fun _ _ _ _ => .undef) [] [] 8 []
     [(FALLBACK_KEY, .obj [("url", .str "fallback")]), ("branch", .obj [])]
     (.obj [(FALLBACK_KEY, .obj [("url", .str "fallback")]),
            ("branch", .obj [("url", .str "fallback")])]) rfl⟩

/-- C9 counterexample: a repository value that is itself macro-shaped
breaks idempotence.  With the source mapping "k" to the macro node
`{$$: "k2"}` and "k2" to `5`, the first pass rewrites `{a: {$$: "k"}}` to
`{a: {$$: "k2"}}` — the freshly substituted node is not re-resolved, only
its children are — and a second pass on that output changes the tree again,
to `{a: 5}`. -/
theorem c9_counterexample :
    updateConfig (fun _ _ _ _ => .undef)
      [⟨"r", default_resolver,
        .obj [("k", .obj [(CM.KEY_KEY, .str "k2")]), ("k2", .num 5)]⟩] 9
      (.obj [("a", .obj [(CM.KEY_KEY, .str "k")])]) [] ""
      = .ok (.obj [("a", .obj [(CM.KEY_KEY, .str "k2")])]) ∧
    updateConfig (fun _ _ _ _ => .undef)
      [⟨"r", default_resolver,
        .obj [("k", .obj [(CM.KEY_KEY, .str "k2")]), ("k2", .num 5)]⟩] 9
      (.obj [("a", .obj [(CM.KEY_KEY, .str "k2")])]) [] ""
      = .ok (.obj [("a", .num 5)]) ∧
    (JVal.obj [("a", .num 5)]) ≠ .obj [("a", .obj [(CM.KEY_KEY, .str "k2")])] :=
  ⟨rfl, rfl, by simp⟩

/-- C9 amended: `updateConfig` is a no-op — hence a second run makes no
further changes — exactly on stable trees: every entry the traversal
processes is not macro-shaped, already carries every enclosing fallback
key, and recursively so.  A first pass leaves the tree in that state in
typical use (resolved values are plain data, copied fallback entries are
resolved during the same pass), but not always: when a repository value is
itself macro-shaped, pass one installs a macro node verbatim and a second
pass resolves it further (see the counterexample). -/
theorem c9_updateConfig_stable_fixpoint (cbs : CbEnv)
    (repos : List RepoEntry) (fuel : Nat) (root : JVal)
    (exclude : List String) (initialParentKey : String)
    (h : stableF exclude fuel root = true) :
    updateConfig cbs repos fuel root exclude initialParentKey = .ok root := by
  rw [updateConfig]
  by_cases ho : isObjLike root = true
  · rw [if_pos ho]
    exact traverseConfig_stable fuel _ root h
  · rw [if_neg ho]

/-- C9 amended witness: the first-pass output of the end-to-end fallback
example is stable, and a second `updateConfig` run returns it unchanged. -/
theorem c9_updateConfig_stable_fixpoint_witness :
    updateConfig (fun _ _ _ _ => .undef) [] 9
      (.obj [(FALLBACK_KEY, .obj [("url", .str "fallback")]),
             ("branch", .obj [])]) [] ""
      = .ok (.obj [(FALLBACK_KEY, .obj [("url", .str "fallback")]),
                   ("branch", .obj [("url", .str "fallback")])]) ∧
    stableF [] 9 (.obj [(FALLBACK_KEY, .obj [("url", .str "fallback")]),
                        ("branch", .obj [("url", .str "fallback")])]) = true ∧
    updateConfig (fun _ _ _ _ => .undef) [] 9
      (.obj [(FALLBACK_KEY, .obj [("url", .str "fallback")]),
             ("branch", .obj [("url", .str "fallback")])]) [] ""
      = .ok (.obj [(FALLBACK_KEY, .obj [("url", .str "fallback")]),
                   ("branch", .obj [("url", .str "fallback")])]) :=
  ⟨rfl, rfl,
   c9_updateConfig_stable_fixpoint (fun _ _ _ _ => .undef) [] 9
     (.obj [(FALLBACK_KEY, .obj [("url", .str "fallback")]),
            ("branch", .obj [("url", .str "fallback")])]) [] "" rfl⟩
